import Mathlib

/-!
Shallow embedding of `fixed_free_list` (src/src/lib.rs): a fixed-size
free-list allocator `FixedFreeList<T, N>` with an intrusive free chain
threaded through the storage, plus the branded wrapper
`SafeFixedFreeList`.

The Rust storage cell is `MaybeUninit<Block<T, N>>` where `Block` is an
untagged union of a live value and a `next : usize` link.  The logical
state of a cell at any time is exactly one of: an initialized live value,
an initialized free-chain link, or uninitialized.  We model that logical
state with a tagged `Slot`; the unchecked union reads of the Rust code
(`assume_init_ref().next`, `.value`) become partial reads (`Slot.nextOf`
with an arbitrary result outside `free` slots, `Option`-valued value
reads), which is faithful because such reads are undefined behavior in
the source and never occur in the reachable states the claims range over.
-/

/-- Logical state of one storage cell (`MaybeUninit<Block<T, N>>`). -/
inductive Slot (T : Type) where
  | occupied (value : T)
  | free (next : Nat)
  | uninit
deriving DecidableEq, Repr

namespace Slot

/-- The unchecked union read `block.next`.  In the source this is only
ever performed on a cell holding a free-chain link; on any other cell it
would read undefined bytes, modeled here by an arbitrary `0`. -/
def nextOf : Slot T → Nat
  | .free n => n
  | _ => 0

/-- The unchecked union read `block.value` (`assume_init().value`),
`none` when the cell does not hold a live value (undefined behavior in
the source). -/
def valueOf : Slot T → Option T
  | .occupied v => some v
  | _ => none

end Slot

/-- Indexing `self.data[key]` on the logical slot list; out-of-range
(impossible in the source, where `data` has static length `N`) defaults
to `uninit`. -/
def readSlot (data : List (Slot T)) (i : Nat) : Slot T :=
  (data[i]?).getD .uninit

/-- The container: `next` is the head of the free chain (`N` = empty),
`high` the high-water mark, `data` the `N` storage cells. -/
structure FixedFreeList (T : Type) (N : Nat) where
  next : Nat
  high : Nat
  data : List (Slot T)
deriving DecidableEq, Repr

namespace FixedFreeList

/-- `FixedFreeList::new`: `next = N`, `high = 0`, all cells uninitialized. -/
def new : FixedFreeList T N :=
  { next := N, high := 0, data := List.replicate N .uninit }

/-- `FixedFreeList::alloc`.  Pops the free chain head if non-empty, else
bumps the high-water mark if below `N`, else returns `None` (dropping
`value`) and leaves the state unchanged.  Returns the Rust return value
paired with the updated container. -/
def alloc (s : FixedFreeList T N) (value : T) : Option Nat × FixedFreeList T N :=
  if s.next < N then
    let key := s.next
    let next' := (readSlot s.data key).nextOf
    (some key, { s with next := next', data := s.data.set key (.occupied value) })
  else if s.high < N then
    let key := s.high
    (some key, { s with high := s.high + 1, data := s.data.set key (.occupied value) })
  else
    (none, s)

/-- `FixedFreeList::free_unchecked`: replaces the cell at `key` with a
free-chain link to the old `next` and makes `key` the new chain head.
The moved-out value is the unchecked union read of the old cell. -/
def free_unchecked (s : FixedFreeList T N) (key : Nat) : Option T × FixedFreeList T N :=
  let value := (readSlot s.data key).valueOf
  (value, { s with data := s.data.set key (.free s.next), next := key })

/-- `FixedFreeList::get_unchecked`: unchecked read of the live value at
`key`. -/
def get_unchecked (s : FixedFreeList T N) (key : Nat) : Option T :=
  (readSlot s.data key).valueOf

/-- `FixedFreeList::get_mut_unchecked`: same unchecked access as
`get_unchecked`; the value behind the returned `&mut` borrow. -/
def get_mut_unchecked (s : FixedFreeList T N) (key : Nat) : Option T :=
  (readSlot s.data key).valueOf

/-- `FixedFreeList::size_hint`: returns `high`. -/
def size_hint (s : FixedFreeList T N) : Nat :=
  s.high

/-- `FixedFreeList::is_full`: `self.high == N && self.next == N`. -/
def is_full (s : FixedFreeList T N) : Bool :=
  s.high == N && s.next == N

/-- `FixedFreeList::clear`: drops every live value and resets
`high = 0`, `next = N`.  The source leaves the raw bytes of the cells in
place, but after the drops every cell is logically uninitialized
(`MaybeUninit` contents may never be read again before being
overwritten), so the logical state resets every cell to `uninit`. -/
def clear (_s : FixedFreeList T N) : FixedFreeList T N :=
  { next := N, high := 0, data := List.replicate N .uninit }

/-- The free-chain walk `while next < N { next = data[next].next }`
common to `is_free`, `clear` and the `Debug` impl, with explicit fuel:
on states satisfying the structural invariants the chain is acyclic with
at most `N` cells, so fuel `N` reproduces the source loop exactly. -/
def chainWalk (NN : Nat) (data : List (Slot T)) : Nat → Nat → List Nat
  | _, 0 => []
  | hd, fuel + 1 =>
    if hd < NN then hd :: chainWalk NN data (readSlot data hd).nextOf fuel
    else []

/-- The free chain of a container, as the list of indices visited by the
source's chain-walk loop starting at `free_head`. -/
def freeChain (s : FixedFreeList T N) : List Nat :=
  chainWalk N s.data s.next N

end FixedFreeList

/-- The `Space` classification printed by `Debug for FixedFreeList`. -/
inductive Space (T : Type) where
  | value (v : T)
  | free (next : Nat)
  | uninit
deriving DecidableEq, Repr

namespace FixedFreeList

/-- First loop of the `Debug` impl: walk the free chain, marking each
visited slot `Free(next)` in the `spaces` array (fueled like
`chainWalk`). -/
def debugChainFill (NN : Nat) (data : List (Slot T)) :
    Nat → List (Space T) → Nat → List (Space T)
  | _, spaces, 0 => spaces
  | hd, spaces, fuel + 1 =>
    if hd < NN then
      let nx := (readSlot data hd).nextOf
      debugChainFill NN data nx (spaces.set hd (.free nx)) fuel
    else spaces

/-- The `data` field computed by `Debug for FixedFreeList`: start from
all-`Uninit`, mark the free chain, then every slot below `high` still
`Uninit` becomes `Value` via the unchecked union read (which in the
source is only reached on cells actually holding a live value; a
non-live cell there would be undefined bytes, modeled as `uninit`). -/
def debugSpaces (s : FixedFreeList T N) : List (Space T) :=
  let spaces := debugChainFill N s.data s.next (List.replicate N Space.uninit) N
  spaces.mapIdx fun i sp =>
    if i < s.high then
      match sp with
      | .uninit =>
        match readSlot s.data i with
        | .occupied v => Space.value v
        | _ => Space.uninit
      | other => other
    else sp

end FixedFreeList

/-- `ArenaKey<'a, T>`: a branded key.  The lifetime brand and
`PhantomData` have no runtime content; the only runtime field is
`index`. -/
structure ArenaKey (U : Type) where
  index : Nat
deriving DecidableEq, Repr

/-- `SafeFixedFreeList<'a, T, N, U>`: the brand `U` and the
`PhantomData` marker have no runtime content, so the only runtime state
is the inner `FixedFreeList`. -/
structure SafeFixedFreeList (T : Type) (N : Nat) (U : Type) where
  inner : FixedFreeList T N
deriving DecidableEq, Repr

namespace SafeFixedFreeList

/-- `SafeFixedFreeList::new(_: U)`: wraps a fresh inner list; the
closure argument only fixes the brand type. -/
def new (_ : U) : SafeFixedFreeList T N U :=
  { inner := FixedFreeList.new }

/-- `SafeFixedFreeList::alloc`: pass-through to `FixedFreeList::alloc`,
wrapping the returned index into an `ArenaKey`. -/
def alloc (w : SafeFixedFreeList T N U) (value : T) :
    Option (ArenaKey U) × SafeFixedFreeList T N U :=
  let r := w.inner.alloc value
  (r.1.map fun index => { index := index }, { inner := r.2 })

/-- `SafeFixedFreeList::free`: unwraps the key and passes through to
`FixedFreeList::free_unchecked`. -/
def free (w : SafeFixedFreeList T N U) (key : ArenaKey U) :
    Option T × SafeFixedFreeList T N U :=
  let r := w.inner.free_unchecked key.index
  (r.1, { inner := r.2 })

/-- `SafeFixedFreeList::get`: pass-through to
`FixedFreeList::get_unchecked` (the `transmute` only adjusts the borrow
lifetime). -/
def get (w : SafeFixedFreeList T N U) (key : ArenaKey U) : Option T :=
  w.inner.get_unchecked key.index

/-- `SafeFixedFreeList::get_mut`: pass-through to
`FixedFreeList::get_mut_unchecked`. -/
def get_mut (w : SafeFixedFreeList T N U) (key : ArenaKey U) : Option T :=
  w.inner.get_mut_unchecked key.index

/-- `SafeFixedFreeList::size_hint`: pass-through. -/
def size_hint (w : SafeFixedFreeList T N U) : Nat :=
  w.inner.size_hint

/-- `SafeFixedFreeList::is_full`: pass-through. -/
def is_full (w : SafeFixedFreeList T N U) : Bool :=
  w.inner.is_full

/-- `SafeFixedFreeList::clear`: pass-through. -/
def clear (w : SafeFixedFreeList T N U) : SafeFixedFreeList T N U :=
  { inner := w.inner.clear }

end SafeFixedFreeList

/-- One call of the shared public interface, for comparing the wrapper
against the base allocator on whole operation sequences (keys given as
raw indices). -/
inductive FLOp (T : Type) where
  | alloc (value : T)
  | free (key : Nat)
  | get (key : Nat)
  | get_mut (key : Nat)
  | clear
  | size_hint
  | is_full
deriving DecidableEq, Repr

/-- The observable result of one call. -/
inductive FLRes (T : Type) where
  | key (k : Option Nat)
  | value (v : Option T)
  | num (n : Nat)
  | flag (b : Bool)
deriving DecidableEq, Repr

/-- Run one operation directly on the base allocator. -/
def stepBase (s : FixedFreeList T N) : FLOp T → FLRes T × FixedFreeList T N
  | .alloc v => let r := s.alloc v; (.key r.1, r.2)
  | .free k => let r := s.free_unchecked k; (.value r.1, r.2)
  | .get k => (.value (s.get_unchecked k), s)
  | .get_mut k => (.value (s.get_mut_unchecked k), s)
  | .clear => (.key none, s.clear)
  | .size_hint => (.num s.size_hint, s)
  | .is_full => (.flag s.is_full, s)

/-- Run one operation through the safety wrapper, wrapping the raw key
into an `ArenaKey` on the way in and unwrapping returned handles to
their raw indices on the way out. -/
def stepSafe (w : SafeFixedFreeList T N U) : FLOp T → FLRes T × SafeFixedFreeList T N U
  | .alloc v => let r := w.alloc v; (.key (r.1.map ArenaKey.index), r.2)
  | .free k => let r := w.free { index := k }; (.value r.1, r.2)
  | .get k => (.value (w.get { index := k }), w)
  | .get_mut k => (.value (w.get_mut { index := k }), w)
  | .clear => (.key none, w.clear)
  | .size_hint => (.num w.size_hint, w)
  | .is_full => (.flag w.is_full, w)

/-- Run an operation sequence on the base allocator, collecting results. -/
def runBase (s : FixedFreeList T N) : List (FLOp T) → List (FLRes T) × FixedFreeList T N
  | [] => ([], s)
  | op :: ops =>
    let r := stepBase s op
    let rest := runBase r.2 ops
    (r.1 :: rest.1, rest.2)

/-- Run an operation sequence through the safety wrapper. -/
def runSafe (w : SafeFixedFreeList T N U) : List (FLOp T) → List (FLRes T) × SafeFixedFreeList T N U
  | [] => ([], w)
  | op :: ops =>
    let r := stepSafe w op
    let rest := runSafe r.2 ops
    (r.1 :: rest.1, rest.2)

/-- Allocate a list of values in order, collecting the returned keys. -/
def allocAll (s : FixedFreeList T N) : List T → List (Option Nat) × FixedFreeList T N
  | [] => ([], s)
  | v :: vs =>
    let r := s.alloc v
    let rest := allocAll r.2 vs
    (r.1 :: rest.1, rest.2)

/-- A key is live: the cell it names currently holds a value (it came
from `alloc` and has not since been freed — safety contract I4 of
`free_unchecked`/`get_unchecked`). -/
def FixedFreeList.live (s : FixedFreeList T N) (key : Nat) : Prop :=
  ∃ v, s.data[key]? = some (Slot.occupied v)

instance (s : FixedFreeList T N) (key : Nat) [DecidableEq T] :
    Decidable (s.live key) := by
  unfold FixedFreeList.live
  cases h : s.data[key]? with
  | none => exact .isFalse (by simp [h])
  | some sl =>
    cases sl with
    | occupied v => exact .isTrue ⟨v, by simp [h]⟩
    | free n => exact .isFalse (by simp [h])
    | uninit => exact .isFalse (by simp [h])

/-- The container states reachable through the public interface:
freshly constructed, then closed under `alloc` (any value), `free` on a
live key, and `clear`. -/
inductive Reach (T : Type) (N : Nat) : FixedFreeList T N → Prop where
  | new : Reach T N .new
  | alloc (s : FixedFreeList T N) (v : T) : Reach T N s → Reach T N (s.alloc v).2
  | free (s : FixedFreeList T N) (k : Nat) : Reach T N s → s.live k →
      Reach T N (s.free_unchecked k).2
  | clear (s : FixedFreeList T N) : Reach T N s → Reach T N s.clear

/-- The free chain as a relation: `ChainFrom N data hd fl` says that
starting at head pointer `hd` and following the stored links visits
exactly the cells `fl` and terminates at the sentinel `N`. -/
inductive ChainFrom (NN : Nat) (data : List (Slot T)) : Nat → List Nat → Prop where
  | nil : ChainFrom NN data NN []
  | cons {k nx : Nat} {fl : List Nat} : k < NN → data[k]? = some (Slot.free nx) →
      ChainFrom NN data nx fl → ChainFrom NN data k (k :: fl)

/-- The structural invariants of the container (spec §3):
`len`/`high_le`/`next_le` are the basic bounds; `chain` packages I1–I3:
some duplicate-free list `fl` of indices below `high` is the free chain
from `free_head` (I2, and I3 since the chain ends exactly at the
sentinel `N`), every index below `high` outside it holds a live value
and every index at or above `high` is uninitialized (I1). -/
def FixedFreeList.Inv (s : FixedFreeList T N) : Prop :=
  s.data.length = N ∧ s.high ≤ N ∧ s.next ≤ N ∧
  ∃ fl : List Nat,
    ChainFrom N s.data s.next fl ∧
    fl.Nodup ∧
    (∀ k ∈ fl, k < s.high) ∧
    (∀ k, k < s.high → k ∉ fl → ∃ v, s.data[k]? = some (Slot.occupied v)) ∧
    (∀ k, s.high ≤ k → k < N → s.data[k]? = some Slot.uninit)

/-- Number of live values currently stored (the exact element count that
`size_hint` bounds from above). -/
def FixedFreeList.liveCount (s : FixedFreeList T N) : Nat :=
  (s.data.filter fun sl => match sl with | .occupied _ => true | _ => false).length

namespace FixedFreeList

theorem readSlot_set_self {data : List (Slot T)} {i : Nat} (h : i < data.length)
    (sl : Slot T) : readSlot (data.set i sl) i = sl := by
  unfold readSlot
  rw [List.getElem?_set_eq_of_lt sl h]
  rfl

theorem readSlot_set_ne {data : List (Slot T)} {i j : Nat} (h : i ≠ j)
    (sl : Slot T) : readSlot (data.set i sl) j = readSlot data j := by
  unfold readSlot
  rw [List.getElem?_set_ne h]

theorem alloc_pop (s : FixedFreeList T N) (v : T) (h : s.next < N) :
    s.alloc v = (some s.next,
      { s with next := (readSlot s.data s.next).nextOf,
               data := s.data.set s.next (.occupied v) }) := by
  simp [FixedFreeList.alloc, h]

theorem alloc_fresh (s : FixedFreeList T N) (v : T) (h1 : ¬ s.next < N)
    (h2 : s.high < N) :
    s.alloc v = (some s.high,
      { s with high := s.high + 1, data := s.data.set s.high (.occupied v) }) := by
  simp [FixedFreeList.alloc, h1, h2]

theorem alloc_full (s : FixedFreeList T N) (v : T) (h1 : ¬ s.next < N)
    (h2 : ¬ s.high < N) : s.alloc v = (none, s) := by
  simp [FixedFreeList.alloc, h1, h2]

theorem free_state (s : FixedFreeList T N) (k : Nat) :
    (s.free_unchecked k).2 = { s with data := s.data.set k (.free s.next), next := k } :=
  rfl

theorem clear_eq_new (s : FixedFreeList T N) : s.clear = FixedFreeList.new :=
  rfl

end FixedFreeList

namespace ChainFrom

theorem mem_free {NN : Nat} {data : List (Slot T)} {hd : Nat} {fl : List Nat}
    (hc : ChainFrom NN data hd fl) {j : Nat} (hj : j ∈ fl) :
    ∃ nx, data[j]? = some (Slot.free nx) := by
  induction hc with
  | nil => cases hj
  | @cons k nx fl' hlt hget hrest ih =>
    rcases List.mem_cons.mp hj with rfl | hj'
    · exact ⟨nx, hget⟩
    · exact ih hj'

theorem not_mem_of_occupied {NN : Nat} {data : List (Slot T)} {hd : Nat}
    {fl : List Nat} (hc : ChainFrom NN data hd fl) {k : Nat} {v : T}
    (hk : data[k]? = some (Slot.occupied v)) : k ∉ fl := by
  intro hmem
  obtain ⟨nx, hnx⟩ := hc.mem_free hmem
  rw [hk] at hnx
  exact Slot.noConfusion (Option.some.inj hnx)

theorem set_of_not_mem {NN : Nat} {data : List (Slot T)} {hd : Nat}
    {fl : List Nat} (hc : ChainFrom NN data hd fl) {k : Nat} (hk : k ∉ fl)
    (sl : Slot T) : ChainFrom NN (data.set k sl) hd fl := by
  induction hc with
  | nil => exact .nil
  | @cons k' nx fl' hlt hget hrest ih =>
    have hne : k ≠ k' := fun h => hk (by simp [h])
    refine .cons hlt ?_ (ih fun h => hk (List.mem_cons_of_mem _ h))
    rw [List.getElem?_set_ne hne]
    exact hget

theorem head_le {NN : Nat} {data : List (Slot T)} {hd : Nat} {fl : List Nat}
    (hc : ChainFrom NN data hd fl) : hd ≤ NN := by
  cases hc with
  | nil => exact Nat.le_refl _
  | cons hlt _ _ => exact Nat.le_of_lt hlt

theorem of_lt {NN : Nat} {data : List (Slot T)} {hd : Nat} {fl : List Nat}
    (hc : ChainFrom NN data hd fl) (h : hd < NN) :
    ∃ nx fl', fl = hd :: fl' ∧ data[hd]? = some (Slot.free nx) ∧
      ChainFrom NN data nx fl' := by
  cases hc with
  | nil => exact absurd h (Nat.lt_irrefl _)
  | cons hlt hget hrest => exact ⟨_, _, rfl, hget, hrest⟩

theorem of_not_lt {NN : Nat} {data : List (Slot T)} {hd : Nat} {fl : List Nat}
    (hc : ChainFrom NN data hd fl) (h : ¬ hd < NN) : fl = [] ∧ hd = NN := by
  cases hc with
  | nil => exact ⟨rfl, rfl⟩
  | cons hlt _ _ => exact absurd hlt h

theorem eq_sentinel_of_nil {NN : Nat} {data : List (Slot T)} {hd : Nat}
    (hc : ChainFrom NN data hd []) : hd = NN := by
  cases hc
  rfl

end ChainFrom

/-- A duplicate-free list of naturals below `NN` has length at most `NN`. -/
theorem nodup_length_le {fl : List Nat} {NN : Nat} (hnd : fl.Nodup)
    (hlt : ∀ k ∈ fl, k < NN) : fl.length ≤ NN := by
  have h1 : fl.toFinset.card = fl.length := List.toFinset_card_of_nodup hnd
  have h2 : fl.toFinset ⊆ Finset.range NN := by
    intro x hx
    rw [List.mem_toFinset] at hx
    exact Finset.mem_range.mpr (hlt x hx)
  calc fl.length = fl.toFinset.card := h1.symm
    _ ≤ (Finset.range NN).card := Finset.card_le_card h2
    _ = NN := Finset.card_range NN

/-- The fueled source loop reproduces the relational chain whenever the
fuel covers the chain length. -/
theorem chainWalk_eq {NN : Nat} {data : List (Slot T)} {hd : Nat} {fl : List Nat}
    (hc : ChainFrom NN data hd fl) :
    ∀ fuel, fl.length ≤ fuel → FixedFreeList.chainWalk NN data hd fuel = fl := by
  induction hc with
  | nil =>
    intro fuel _
    cases fuel with
    | zero => rfl
    | succ f => simp [FixedFreeList.chainWalk]
  | @cons k nx fl' hlt hget hrest ih =>
    intro fuel hfuel
    cases fuel with
    | zero => simp at hfuel
    | succ f =>
      have hrd : readSlot data k = Slot.free nx := by
        unfold readSlot
        rw [hget]
        rfl
      simp only [FixedFreeList.chainWalk, if_pos hlt, hrd]
      have : (Slot.free nx : Slot T).nextOf = nx := rfl
      rw [this]
      rw [ih f (Nat.le_of_succ_le_succ hfuel)]

namespace FixedFreeList

theorem Inv_new : (FixedFreeList.new : FixedFreeList T N).Inv := by
  refine ⟨?_, Nat.zero_le _, Nat.le_refl _, [], .nil, List.nodup_nil, ?_, ?_, ?_⟩
  · simp [FixedFreeList.new]
  · intro k hk
    cases hk
  · intro k hk _
    exact absurd hk (Nat.not_lt_zero k)
  · intro k _ hk2
    show (List.replicate N (Slot.uninit : Slot T))[k]? = some Slot.uninit
    rw [List.getElem?_replicate_of_lt hk2]

theorem Inv_clear (s : FixedFreeList T N) : s.clear.Inv :=
  clear_eq_new s ▸ Inv_new

theorem Inv_alloc (s : FixedFreeList T N) (v : T) (h : s.Inv) : (s.alloc v).2.Inv := by
  obtain ⟨hlen, hhigh, hnextle, fl, hc, hnd, hfllt, hocc, hun⟩ := h
  by_cases h1 : s.next < N
  · -- the free chain is non-empty: pop its head
    obtain ⟨nx, fl', rfl, hget, hrest⟩ := hc.of_lt h1
    have hrd : readSlot s.data s.next = Slot.free nx := by
      unfold readSlot
      rw [hget]
      rfl
    rw [alloc_pop s v h1]
    have hnodup := List.nodup_cons.mp hnd
    have hheadhigh : s.next < s.high := hfllt s.next (List.mem_cons_self _ _)
    refine ⟨by simp [hlen], hhigh, ?_, fl', ?_, hnodup.2, ?_, ?_, ?_⟩
    · show (readSlot s.data s.next).nextOf ≤ N
      rw [hrd]
      exact hrest.head_le
    · show ChainFrom N (s.data.set s.next (.occupied v)) (readSlot s.data s.next).nextOf fl'
      rw [hrd]
      exact hrest.set_of_not_mem hnodup.1 _
    · intro k hk
      exact hfllt k (List.mem_cons_of_mem _ hk)
    · intro k hk hknot
      by_cases hks : k = s.next
      · subst hks
        exact ⟨v, List.getElem?_set_eq_of_lt _ (Nat.lt_of_lt_of_le h1 hlen.ge)⟩
      · have hkmem : k ∉ s.next :: fl' := by
          intro hmem
          rcases List.mem_cons.mp hmem with h' | h'
          · exact hks h'
          · exact hknot h'
        obtain ⟨w, hw⟩ := hocc k hk hkmem
        exact ⟨w, by rw [List.getElem?_set_ne fun h' => hks h'.symm]; exact hw⟩
    · intro k hk1 hk2
      have hne : s.next ≠ k := Nat.ne_of_lt (lt_of_lt_of_le hheadhigh hk1)
      rw [List.getElem?_set_ne hne]
      exact hun k hk1 hk2
  · by_cases h2 : s.high < N
    · -- fresh slot at the high-water mark
      rw [alloc_fresh s v h1 h2]
      obtain ⟨rfl, hsn⟩ := hc.of_not_lt h1
      refine ⟨by simp [hlen], h2, hnextle, [], ?_, List.nodup_nil, ?_, ?_, ?_⟩
      · show ChainFrom N (s.data.set s.high (.occupied v)) s.next []
        rw [hsn]
        exact .nil
      · intro k hk
        cases hk
      · intro k hk _
        by_cases hks : k = s.high
        · subst hks
          exact ⟨v, List.getElem?_set_eq_of_lt _ (Nat.lt_of_lt_of_le h2 hlen.ge)⟩
        · have hk' : k < s.high := Nat.lt_of_le_of_ne (Nat.le_of_lt_succ hk) hks
          obtain ⟨w, hw⟩ := hocc k hk' (List.not_mem_nil k)
          exact ⟨w, by rw [List.getElem?_set_ne fun h' => hks h'.symm]; exact hw⟩
      · intro k hk1 hk2
        have hne : s.high ≠ k := Nat.ne_of_lt (Nat.lt_of_succ_le hk1)
        rw [List.getElem?_set_ne hne]
        exact hun k (Nat.le_of_succ_le hk1) hk2
    · rw [alloc_full s v h1 h2]
      exact ⟨hlen, hhigh, hnextle, fl, hc, hnd, hfllt, hocc, hun⟩

theorem live_lt_length (s : FixedFreeList T N) (k : Nat) (hl : s.live k) :
    k < s.data.length := by
  obtain ⟨v, hv⟩ := hl
  by_contra h
  rw [List.getElem?_eq_none (Nat.le_of_not_lt h)] at hv
  cases hv

theorem Inv_free (s : FixedFreeList T N) (k : Nat) (h : s.Inv) (hl : s.live k) :
    (s.free_unchecked k).2.Inv := by
  obtain ⟨hlen, hhigh, hnextle, fl, hc, hnd, hfllt, hocc, hun⟩ := h
  obtain ⟨v, hv⟩ := hl
  have hkN : k < N := hlen ▸ live_lt_length s k ⟨v, hv⟩
  have hkfl : k ∉ fl := hc.not_mem_of_occupied hv
  have hkhigh : k < s.high := by
    by_contra hcontra
    have := hun k (Nat.le_of_not_lt hcontra) hkN
    rw [hv] at this
    exact Slot.noConfusion (Option.some.inj this)
  rw [free_state]
  refine ⟨by simp [hlen], hhigh, Nat.le_of_lt hkN, k :: fl, ?_,
    List.nodup_cons.mpr ⟨hkfl, hnd⟩, ?_, ?_, ?_⟩
  · show ChainFrom N (s.data.set k (.free s.next)) k (k :: fl)
    refine .cons hkN ?_ (hc.set_of_not_mem hkfl _)
    exact List.getElem?_set_eq_of_lt _ (Nat.lt_of_lt_of_le hkN hlen.ge)
  · intro j hj
    rcases List.mem_cons.mp hj with rfl | hj'
    · exact hkhigh
    · exact hfllt j hj'
  · intro j hj hjnot
    have hjk : j ≠ k := fun h' => hjnot (h' ▸ List.mem_cons_self _ _)
    have hjfl : j ∉ fl := fun h' => hjnot (List.mem_cons_of_mem _ h')
    obtain ⟨w, hw⟩ := hocc j hj hjfl
    exact ⟨w, by rw [List.getElem?_set_ne fun h' => hjk h'.symm]; exact hw⟩
  · intro j hj1 hj2
    have hne : k ≠ j := Nat.ne_of_lt (lt_of_lt_of_le hkhigh hj1)
    rw [List.getElem?_set_ne hne]
    exact hun j hj1 hj2

theorem Reach_inv {s : FixedFreeList T N} (h : Reach T N s) : s.Inv := by
  induction h with
  | new => exact Inv_new
  | alloc s v _ ih => exact Inv_alloc s v ih
  | free s k _ hl ih => exact Inv_free s k ih hl
  | clear s _ _ => exact Inv_clear s

theorem inv_freeChain (s : FixedFreeList T N) (h : s.Inv) :
    ∃ fl, ChainFrom N s.data s.next fl ∧ s.freeChain = fl ∧ fl.Nodup ∧
      ∀ j ∈ fl, j < s.high := by
  obtain ⟨hlen, hhigh, hnextle, fl, hc, hnd, hfllt, hocc, hun⟩ := h
  refine ⟨fl, hc, ?_, hnd, hfllt⟩
  exact chainWalk_eq hc N
    (nodup_length_le hnd fun j hj => lt_of_lt_of_le (hfllt j hj) hhigh)

theorem inv_next_iff (s : FixedFreeList T N) (h : s.Inv) :
    s.next = N ↔ s.freeChain = [] := by
  obtain ⟨fl, hc, hfc, _, _⟩ := inv_freeChain s h
  constructor
  · intro hn
    obtain ⟨hfl, _⟩ := hc.of_not_lt (by rw [hn]; exact Nat.lt_irrefl N)
    rw [hfc, hfl]
  · intro he
    rw [hfc] at he
    subst he
    exact hc.eq_sentinel_of_nil

end FixedFreeList

/-- If every element of `l` from position `n` on falsifies `p`, the
filtered list has at most `n` elements. -/
theorem length_filter_le_of_false_from {p : α → Bool} :
    ∀ (l : List α) (n : Nat),
      (∀ j, n ≤ j → ∀ a, l[j]? = some a → p a = false) →
      (l.filter p).length ≤ n := by
  intro l
  induction l with
  | nil =>
    intro n _
    simp
  | cons x xs ih =>
    intro n hn
    cases n with
    | zero =>
      have hall : ∀ a ∈ x :: xs, ¬ p a = true := by
        intro a ha
        obtain ⟨j, hj, hje⟩ := List.getElem_of_mem ha
        have := hn j (Nat.zero_le j) a (by rw [List.getElem?_eq_getElem hj, hje])
        simp [this]
      rw [List.filter_eq_nil_iff.mpr hall]
      exact Nat.le_refl 0
    | succ m =>
      have hrest : ∀ j, m ≤ j → ∀ a, xs[j]? = some a → p a = false :=
        fun j hj a ha => hn (j + 1) (Nat.succ_le_succ hj) a (by simpa using ha)
      rw [List.filter_cons]
      by_cases hx : p x
      · rw [if_pos hx]
        exact Nat.succ_le_succ (ih m hrest)
      · rw [if_neg hx]
        exact Nat.le_trans (ih m hrest) (Nat.le_succ m)

namespace FixedFreeList

theorem liveCount_le_high (s : FixedFreeList T N) (h : s.Inv) :
    s.liveCount ≤ s.high := by
  obtain ⟨hlen, -, -, -, -, -, -, -, hun⟩ := h
  refine length_filter_le_of_false_from s.data s.high ?_
  intro j hj a ha
  by_cases hjN : j < N
  · rw [hun j hj hjN] at ha
    cases Option.some.inj ha
    rfl
  · rw [List.getElem?_eq_none (by rw [hlen]; exact Nat.le_of_not_lt hjN)] at ha
    cases ha

/-- Allocating from a container whose free chain is empty takes the
fresh-slot branch every time: all keys come back `Some` and the
high-water mark advances by the number of values. -/
theorem allocAll_fresh (vs : List T) : ∀ s : FixedFreeList T N,
    s.next = N → s.data.length = N → s.high + vs.length ≤ N →
    (∀ r ∈ (allocAll s vs).1, r.isSome) ∧
    (allocAll s vs).2.next = N ∧
    (allocAll s vs).2.high = s.high + vs.length ∧
    (allocAll s vs).2.data.length = N := by
  induction vs with
  | nil =>
    intro s h1 h2 _
    refine ⟨?_, h1, rfl, h2⟩
    intro r hr
    cases hr
  | cons v vs ih =>
    intro s h1 h2 hcap
    have hnl : ¬ s.next < N := by
      rw [h1]
      exact Nat.lt_irrefl N
    have hh : s.high < N := by
      have := hcap
      simp only [List.length_cons] at this
      omega
    have hstep := alloc_fresh s v hnl hh
    have hrec := ih { s with high := s.high + 1, data := s.data.set s.high (.occupied v) }
      h1 (by simp [h2]) (by simp only [List.length_cons] at hcap; show s.high + 1 + vs.length ≤ N; omega)
    obtain ⟨ha, hb, hc', hd⟩ := hrec
    simp only [allocAll, hstep]
    refine ⟨?_, hb, ?_, hd⟩
    · intro r hr
      rcases List.mem_cons.mp hr with rfl | hr'
      · rfl
      · exact ha r hr'
    · rw [hc']
      simp only [List.length_cons]
      omega

end FixedFreeList

/-- Each wrapper call observes and produces exactly what the base
allocator call does, with handles unwrapped to raw indices. -/
theorem stepSafe_eq (w : SafeFixedFreeList T N U) (op : FLOp T) :
    (stepSafe w op).1 = (stepBase w.inner op).1 ∧
    (stepSafe w op).2.inner = (stepBase w.inner op).2 := by
  cases op with
  | alloc v =>
    refine ⟨?_, rfl⟩
    simp only [stepSafe, stepBase, SafeFixedFreeList.alloc]
    cases (w.inner.alloc v).1 <;> rfl
  | free k => exact ⟨rfl, rfl⟩
  | get k => exact ⟨rfl, rfl⟩
  | get_mut k => exact ⟨rfl, rfl⟩
  | clear => exact ⟨rfl, rfl⟩
  | size_hint => exact ⟨rfl, rfl⟩
  | is_full => exact ⟨rfl, rfl⟩

theorem runSafe_eq (w : SafeFixedFreeList T N U) (ops : List (FLOp T)) :
    (runSafe w ops).1 = (runBase w.inner ops).1 ∧
    (runSafe w ops).2.inner = (runBase w.inner ops).2 := by
  induction ops generalizing w with
  | nil => exact ⟨rfl, rfl⟩
  | cons op ops ih =>
    obtain ⟨h1, h2⟩ := stepSafe_eq w op
    obtain ⟨ih1, ih2⟩ := ih (stepSafe w op).2
    rw [h2] at ih1 ih2
    simp only [runSafe, runBase]
    exact ⟨by rw [h1, ih1], by rw [ih2]⟩

/-- The final state of the concrete debug-dump scenario: capacity 8,
allocate 3, 5, 7, 4, 2 in order, then free keys 1 and 4. -/
def debugScenario : FixedFreeList Nat 8 :=
  (((allocAll (FixedFreeList.new : FixedFreeList Nat 8) [3, 5, 7, 4, 2]).2.free_unchecked
      1).2.free_unchecked 4).2

/-- Claim C1: from a fresh container of capacity `N`, the first `N`
`alloc` calls all return `Some`; after them `is_full` is `true`; and the
`(N+1)`-th `alloc` returns `None`. -/
theorem c1_capacity_behavior (T : Type) (N : Nat) (vs : List T) (h : vs.length = N) :
    (∀ r ∈ (allocAll (FixedFreeList.new : FixedFreeList T N) vs).1, r.isSome) ∧
    (allocAll (FixedFreeList.new : FixedFreeList T N) vs).2.is_full = true ∧
    ∀ v : T, ((allocAll (FixedFreeList.new : FixedFreeList T N) vs).2.alloc v).1 = none := by
  have hall := FixedFreeList.allocAll_fresh vs (FixedFreeList.new : FixedFreeList T N)
    rfl (by simp [FixedFreeList.new]) (by simp [FixedFreeList.new, h])
  obtain ⟨ha, hb, hc', hd⟩ := hall
  have hhigh : (allocAll (FixedFreeList.new : FixedFreeList T N) vs).2.high = N := by
    rw [hc', h]
    show 0 + N = N
    omega
  refine ⟨ha, ?_, ?_⟩
  · show ((allocAll (FixedFreeList.new : FixedFreeList T N) vs).2.high == N &&
        (allocAll (FixedFreeList.new : FixedFreeList T N) vs).2.next == N) = true
    rw [hb, hhigh]
    simp
  · intro v
    have h1 : ¬ (allocAll (FixedFreeList.new : FixedFreeList T N) vs).2.next < N := by
      rw [hb]
      exact Nat.lt_irrefl N
    have h2 : ¬ (allocAll (FixedFreeList.new : FixedFreeList T N) vs).2.high < N := by
      rw [hhigh]
      exact Nat.lt_irrefl N
    rw [FixedFreeList.alloc_full _ v h1 h2]

/-- Witness for C1 at capacity 3 with values 3, 5, 7. -/
theorem c1_capacity_behavior_witness :
    (∀ r ∈ (allocAll (FixedFreeList.new : FixedFreeList Nat 3) [3, 5, 7]).1, r.isSome) ∧
    (allocAll (FixedFreeList.new : FixedFreeList Nat 3) [3, 5, 7]).2.is_full = true ∧
    ∀ v : Nat, ((allocAll (FixedFreeList.new : FixedFreeList Nat 3) [3, 5, 7]).2.alloc v).1 = none :=
  c1_capacity_behavior Nat 3 [3, 5, 7] (by decide)

/-- Claim C2: in any reachable state where key `k` is live, freeing `k`
and then allocating returns `Some k`: the just-freed slot is reused
first. -/
theorem c2_lifo_reuse (T : Type) (N : Nat) (s : FixedFreeList T N)
    (hr : Reach T N s) (k : Nat) (hl : s.live k) (v : T) :
    ((s.free_unchecked k).2.alloc v).1 = some k := by
  have hkN : k < N :=
    Nat.lt_of_lt_of_le (FixedFreeList.live_lt_length s k hl) (FixedFreeList.Reach_inv hr).1.le
  rw [FixedFreeList.free_state s k]
  rw [FixedFreeList.alloc_pop _ v hkN]

/-- Witness for C2: capacity 1, allocate 4 at key 0, free it, allocate 9. -/
theorem c2_lifo_reuse_witness :
    ((((FixedFreeList.new : FixedFreeList Nat 1).alloc 4).2.free_unchecked 0).2.alloc 9).1
      = some 0 :=
  c2_lifo_reuse Nat 1 ((FixedFreeList.new : FixedFreeList Nat 1).alloc 4).2
    (Reach.alloc FixedFreeList.new 4 Reach.new) 0 (by decide) 9

/-- Claim C3: in any reachable state, if `alloc v` returns `Some k`,
then `get_unchecked k` on the resulting state returns exactly `v`. -/
theorem c3_alloc_get_roundtrip (T : Type) (N : Nat) (s : FixedFreeList T N)
    (hr : Reach T N s) (v : T) (k : Nat) (h : (s.alloc v).1 = some k) :
    (s.alloc v).2.get_unchecked k = some v := by
  have hlen : s.data.length = N := (FixedFreeList.Reach_inv hr).1
  by_cases h1 : s.next < N
  · rw [FixedFreeList.alloc_pop s v h1] at h ⊢
    cases Option.some.inj h
    show (readSlot (s.data.set s.next (.occupied v)) s.next).valueOf = some v
    rw [FixedFreeList.readSlot_set_self (Nat.lt_of_lt_of_le h1 hlen.ge)]
    rfl
  · by_cases h2 : s.high < N
    · rw [FixedFreeList.alloc_fresh s v h1 h2] at h ⊢
      cases Option.some.inj h
      show (readSlot (s.data.set s.high (.occupied v)) s.high).valueOf = some v
      rw [FixedFreeList.readSlot_set_self (Nat.lt_of_lt_of_le h2 hlen.ge)]
      rfl
    · rw [FixedFreeList.alloc_full s v h1 h2] at h
      cases h

/-- Witness for C3: capacity 1, allocate 5 into a fresh container. -/
theorem c3_alloc_get_roundtrip_witness :
    ((FixedFreeList.new : FixedFreeList Nat 1).alloc 5).2.get_unchecked 0 = some 5 :=
  c3_alloc_get_roundtrip Nat 1 FixedFreeList.new Reach.new 5 0 (by decide)

/-- Claim C4: every state reachable from `new` by `alloc`, `free` on
live keys, and `clear` satisfies the structural invariants I1-I3
packaged in `Inv` (below the high-water mark every slot is occupied or
on the acyclic free chain, above it everything is uninitialized, and the
chain ends exactly at the sentinel `N`); each operation preserves `Inv`;
and under `Inv` the head pointer is `N` exactly when the free chain is
empty. -/
theorem c4_invariants_preserved (T : Type) (N : Nat) :
    (∀ s : FixedFreeList T N, Reach T N s → s.Inv) ∧
    (FixedFreeList.new : FixedFreeList T N).Inv ∧
    (∀ (s : FixedFreeList T N) (v : T), s.Inv → (s.alloc v).2.Inv) ∧
    (∀ (s : FixedFreeList T N) (k : Nat), s.Inv → s.live k → (s.free_unchecked k).2.Inv) ∧
    (∀ s : FixedFreeList T N, s.Inv → s.clear.Inv) ∧
    (∀ s : FixedFreeList T N, s.Inv → (s.next = N ↔ s.freeChain = [])) :=
  ⟨fun _ hr => FixedFreeList.Reach_inv hr, FixedFreeList.Inv_new,
   fun s v h => FixedFreeList.Inv_alloc s v h,
   fun s k h hl => FixedFreeList.Inv_free s k h hl,
   fun s _ => FixedFreeList.Inv_clear s,
   fun s h => FixedFreeList.inv_next_iff s h⟩

/-- Witness for C4: the invariant holds after one allocation at
capacity 2. -/
theorem c4_invariants_preserved_witness :
    ((FixedFreeList.new : FixedFreeList Nat 2).alloc 7).2.Inv :=
  (c4_invariants_preserved Nat 2).2.2.1 FixedFreeList.new 7 FixedFreeList.Inv_new

/-- Claim C5: in any reachable state, `is_full` returns `true` iff the
high-water mark equals `N` and the free chain is empty. -/
theorem c5_is_full_iff (T : Type) (N : Nat) (s : FixedFreeList T N)
    (hr : Reach T N s) :
    s.is_full = true ↔ (s.high = N ∧ s.freeChain = []) := by
  have hinv := FixedFreeList.Reach_inv hr
  show (s.high == N && s.next == N) = true ↔ _
  rw [Bool.and_eq_true, beq_iff_eq, beq_iff_eq]
  exact and_congr Iff.rfl (FixedFreeList.inv_next_iff s hinv)

/-- Witness for C5 on a fresh container of capacity 2. -/
theorem c5_is_full_iff_witness :
    (FixedFreeList.new : FixedFreeList Nat 2).is_full = true ↔
      ((FixedFreeList.new : FixedFreeList Nat 2).high = 2 ∧
        (FixedFreeList.new : FixedFreeList Nat 2).freeChain = []) :=
  c5_is_full_iff Nat 2 FixedFreeList.new Reach.new

/-- Claim C6: `size_hint` returns the high-water mark, bounds the live
element count from above on reachable states, never decreases under
`alloc`, is unchanged by `free`, becomes 0 after `clear`, and is left
unchanged by a free followed by a re-alloc that reuses the freed slot. -/
theorem c6_size_hint_behavior (T : Type) (N : Nat) (s : FixedFreeList T N) :
    s.size_hint = s.high ∧
    (Reach T N s → s.liveCount ≤ s.size_hint) ∧
    (∀ v : T, s.size_hint ≤ (s.alloc v).2.size_hint) ∧
    (∀ k : Nat, (s.free_unchecked k).2.size_hint = s.size_hint) ∧
    s.clear.size_hint = 0 ∧
    (∀ k : Nat, s.live k → ∀ v : T, Reach T N s →
      ((s.free_unchecked k).2.alloc v).2.size_hint = s.size_hint) := by
  refine ⟨rfl, ?_, ?_, ?_, rfl, ?_⟩
  · intro hr
    exact FixedFreeList.liveCount_le_high s (FixedFreeList.Reach_inv hr)
  · intro v
    by_cases h1 : s.next < N
    · rw [FixedFreeList.alloc_pop s v h1]
      exact Nat.le_refl _
    · by_cases h2 : s.high < N
      · rw [FixedFreeList.alloc_fresh s v h1 h2]
        exact Nat.le_succ _
      · rw [FixedFreeList.alloc_full s v h1 h2]
  · intro k
    rfl
  · intro k hl v hr
    have hkN : k < N :=
      Nat.lt_of_lt_of_le (FixedFreeList.live_lt_length s k hl)
        (FixedFreeList.Reach_inv hr).1.le
    rw [FixedFreeList.free_state s k, FixedFreeList.alloc_pop _ v hkN]
    rfl

/-- Witness for C6: free-then-realloc keeps `size_hint` unchanged at
capacity 1. -/
theorem c6_size_hint_behavior_witness :
    ((((FixedFreeList.new : FixedFreeList Nat 1).alloc 4).2.free_unchecked 0).2.alloc 9).2.size_hint
      = ((FixedFreeList.new : FixedFreeList Nat 1).alloc 4).2.size_hint :=
  (c6_size_hint_behavior Nat 1 ((FixedFreeList.new : FixedFreeList Nat 1).alloc 4).2).2.2.2.2.2
    0 (by decide) 9 (Reach.alloc FixedFreeList.new 4 Reach.new)

/-- Counterexample to C7 as stated: at capacity `N = 0` the container
is empty (freshly constructed) yet `is_full` after `clear` is `true`,
not `false`, because `high == N` and `next == N` both hold at `0`. -/
theorem c7_clear_empty_counterexample :
    ¬ ((FixedFreeList.new : FixedFreeList Nat 0).clear.is_full = false) := by
  decide

/-- Claim C7 (amended: for every capacity `N > 0`): `clear` on an
already-empty container (freshly constructed or just cleared) is a
no-op, and afterwards `is_full` is `false` and `size_hint` is 0. -/
theorem c7_clear_on_empty_noop (T : Type) (N : Nat) (hN : 0 < N)
    (s : FixedFreeList T N)
    (h : s = FixedFreeList.new ∨ ∃ s0 : FixedFreeList T N, s = s0.clear) :
    s.clear = s ∧ s.clear.is_full = false ∧ s.clear.size_hint = 0 := by
  refine ⟨?_, ?_, rfl⟩
  · rcases h with rfl | ⟨s0, rfl⟩
    · rfl
    · rfl
  · show ((0 : Nat) == N && (N == N)) = false
    have h0 : ((0 : Nat) == N) = false := beq_eq_false_iff_ne.mpr (Nat.ne_of_lt hN)
    rw [h0, Bool.false_and]

/-- Witness for amended C7: a fresh container of capacity 1. -/
theorem c7_clear_on_empty_noop_witness :
    (FixedFreeList.new : FixedFreeList Nat 1).clear = FixedFreeList.new ∧
    (FixedFreeList.new : FixedFreeList Nat 1).clear.is_full = false ∧
    (FixedFreeList.new : FixedFreeList Nat 1).clear.size_hint = 0 :=
  c7_clear_on_empty_noop Nat 1 (by decide) FixedFreeList.new (Or.inl rfl)

/-- Claim C8: the concrete scenario of `test_debug`: capacity 8,
allocating 3, 5, 7, 4, 2 yields keys 0-4; after freeing keys 1 and 4
the free chain from the head reads 4 then 1 then end, slots 5-7 are
uninitialized, the high-water mark is 5, and the debug dump classifies
the slots as Value(3), Free, Value(7), Value(4), Free, Uninit, Uninit,
Uninit. -/
theorem c8_debug_dump_scenario :
    (allocAll (FixedFreeList.new : FixedFreeList Nat 8) [3, 5, 7, 4, 2]).1
      = [some 0, some 1, some 2, some 3, some 4] ∧
    debugScenario.freeChain = [4, 1] ∧
    debugScenario.high = 5 ∧
    readSlot debugScenario.data 5 = Slot.uninit ∧
    readSlot debugScenario.data 6 = Slot.uninit ∧
    readSlot debugScenario.data 7 = Slot.uninit ∧
    debugScenario.debugSpaces =
      [Space.value 3, Space.free 8, Space.value 7, Space.value 4,
       Space.free 1, Space.uninit, Space.uninit, Space.uninit] := by
  decide

/-- Claim C9: every wrapper operation is a thin pass-through: on any
operation sequence the wrapper returns (with handles unwrapped) exactly
the base allocator's results and carries exactly the base allocator's
state, wrapper construction wraps a fresh base container, and the
wrapper holds no runtime state beyond the inner container. -/
theorem c9_safe_wrapper_equiv (T : Type) (N : Nat) (U : Type) :
    (∀ (w : SafeFixedFreeList T N U) (ops : List (FLOp T)),
      (runSafe w ops).1 = (runBase w.inner ops).1 ∧
      (runSafe w ops).2.inner = (runBase w.inner ops).2) ∧
    (∀ u : U, (SafeFixedFreeList.new u : SafeFixedFreeList T N U).inner
      = FixedFreeList.new) ∧
    (∀ w : SafeFixedFreeList T N U, w = { inner := w.inner }) :=
  ⟨fun w ops => runSafe_eq w ops, fun _ => rfl, fun _ => rfl⟩

/-- Claim C10: `alloc` on a full reachable container (high-water mark at
`N`, free chain empty) returns `None` and leaves the whole state - head
pointer, high-water mark and every slot - unchanged. -/
theorem c10_alloc_full_noop (T : Type) (N : Nat) (s : FixedFreeList T N)
    (hr : Reach T N s) (hh : s.high = N) (hc : s.freeChain = []) (v : T) :
    s.alloc v = (none, s) := by
  have hn : s.next = N :=
    (FixedFreeList.inv_next_iff s (FixedFreeList.Reach_inv hr)).mpr hc
  exact FixedFreeList.alloc_full s v
    (by rw [hn]; exact Nat.lt_irrefl N) (by rw [hh]; exact Nat.lt_irrefl N)

/-- Witness for C10: a full container of capacity 1. -/
theorem c10_alloc_full_noop_witness :
    ((FixedFreeList.new : FixedFreeList Nat 1).alloc 3).2.alloc 5
      = (none, ((FixedFreeList.new : FixedFreeList Nat 1).alloc 3).2) :=
  c10_alloc_full_noop Nat 1 ((FixedFreeList.new : FixedFreeList Nat 1).alloc 3).2
    (Reach.alloc FixedFreeList.new 3 Reach.new) (by decide) (by decide) 5
